import Mathlib

/-!
# Verification of the OTP library (HOTP / TOTP, RFC 4226 / RFC 6238)

Shallow embedding of the Go package `OTP` (files `otp.go` / `example.go`).
Byte strings are modelled as `List ℕ` with every entry below 256; machine
integers are modelled as `ℕ` / `ℤ` with explicit `% 2^w` where overflow can
occur.  The `float64` arithmetic used by `steps`, `Duration.Seconds` and
`GTimeLeft` is modelled exactly over `ℚ`: `rnd` below implements IEEE-754
binary64 round-to-nearest, ties-to-even (normal range; the inputs arising
from 64-bit integer seconds/nanoseconds never reach overflow or subnormal
territory).
-/

namespace OTPVerify

/-! ## Generic byte/word helpers -/

/-- Truncate to an unsigned 32-bit value. -/
def w32 (n : ℕ) : ℕ := n % 2 ^ 32

/-- Rotate the 32-bit value `n` left by `b` bits (`b ≤ 32`).
For `n < 2^32` the low and high parts do not overlap, so `+` equals `|||`. -/
def rotl (b n : ℕ) : ℕ := w32 (n * 2 ^ b + n / 2 ^ (32 - b))

/-- Big-endian bytes (8 of them) of a 64-bit value, as written by
`binary.Write(mac, binary.BigEndian, count)` in Go. -/
def be8 (n : ℕ) : List ℕ :=
  [n / 2 ^ 56 % 256, n / 2 ^ 48 % 256, n / 2 ^ 40 % 256, n / 2 ^ 32 % 256,
   n / 2 ^ 24 % 256, n / 2 ^ 16 % 256, n / 2 ^ 8 % 256, n % 256]

/-- Big-endian bytes (4 of them) of a 32-bit value. -/
def be4 (n : ℕ) : List ℕ :=
  [n / 2 ^ 24 % 256, n / 2 ^ 16 % 256, n / 2 ^ 8 % 256, n % 256]

/-- Split a list into consecutive chunks of `n` elements (last chunk may be
shorter).  Fueled so that it is structurally recursive. -/
def chunksGo (n : ℕ) : ℕ → List ℕ → List (List ℕ)
  | 0, _ => []
  | _, [] => []
  | fuel + 1, xs => xs.take n :: chunksGo n fuel (xs.drop n)

/-- Split into chunks of `n` elements. -/
def chunks (n : ℕ) (xs : List ℕ) : List (List ℕ) := chunksGo n xs.length xs

/-! ## SHA-1 (crypto/sha1), over byte lists -/

/-- Round function `f_t` of SHA-1 (FIPS 180-4); `NOT x` on 32 bits is
`(2^32-1) ^^^ x`. -/
def sha1F (t b c d : ℕ) : ℕ :=
  if t < 20 then (b &&& c) ||| (((2 ^ 32 - 1) ^^^ b) &&& d)
  else if t < 40 then b ^^^ c ^^^ d
  else if t < 60 then (b &&& c) ||| (b &&& d) ||| (c &&& d)
  else b ^^^ c ^^^ d

/-- Round constants `K_t` of SHA-1. -/
def sha1K (t : ℕ) : ℕ :=
  if t < 20 then 0x5A827999
  else if t < 40 then 0x6ED9EBA1
  else if t < 60 then 0x8F1BBCDC
  else 0xCA62C1D6

/-- Message-schedule extension.  The accumulator holds the schedule words in
reverse order (most recent first), so `W(t-3)` is at index 2, `W(t-8)` at 7,
`W(t-14)` at 13 and `W(t-16)` at 15. -/
def sha1Extend : ℕ → List ℕ → List ℕ
  | 0, ws => ws
  | k + 1, ws =>
    sha1Extend k
      (rotl 1 (ws.getD 2 0 ^^^ ws.getD 7 0 ^^^ ws.getD 13 0 ^^^ ws.getD 15 0) :: ws)

/-- The 80 schedule words of a block given as 16 big-endian 32-bit words. -/
def sha1Schedule (ws16 : List ℕ) : List ℕ :=
  (sha1Extend 64 ws16.reverse).reverse

/-- One SHA-1 round: state is `(t, a, b, c, d, e)`. -/
def sha1Round (st : ℕ × ℕ × ℕ × ℕ × ℕ × ℕ) (w : ℕ) : ℕ × ℕ × ℕ × ℕ × ℕ × ℕ :=
  match st with
  | (t, a, b, c, d, e) =>
    (t + 1, w32 (rotl 5 a + sha1F t b c d + e + sha1K t + w), a, rotl 30 b, c, d)

/-- Convert a 4-byte group to a big-endian 32-bit word. -/
def beWord4 (l : List ℕ) : ℕ :=
  l.getD 0 0 * 2 ^ 24 + l.getD 1 0 * 2 ^ 16 + l.getD 2 0 * 2 ^ 8 + l.getD 3 0

/-- Compress one 64-byte block into the running hash state. -/
def sha1Block (h : ℕ × ℕ × ℕ × ℕ × ℕ) (block : List ℕ) : ℕ × ℕ × ℕ × ℕ × ℕ :=
  match h with
  | (h0, h1, h2, h3, h4) =>
    let ws := sha1Schedule ((chunks 4 block).map beWord4)
    match ws.foldl sha1Round (0, h0, h1, h2, h3, h4) with
    | (_, a, b, c, d, e) =>
      (w32 (h0 + a), w32 (h1 + b), w32 (h2 + c), w32 (h3 + d), w32 (h4 + e))

/-- SHA-1 padding: append `0x80`, zeros, and the 64-bit big-endian bit
length, reaching a multiple of 64 bytes. -/
def sha1Pad (msg : List ℕ) : List ℕ :=
  msg ++ 0x80 :: List.replicate ((64 + 56 - (msg.length + 1) % 64) % 64) 0
      ++ be8 (8 * msg.length)

/-- SHA-1 of a byte list, producing the 20-byte digest. -/
def sha1Hash (msg : List ℕ) : List ℕ :=
  match (chunks 64 (sha1Pad msg)).foldl sha1Block
      (0x67452301, 0xEFCDAB89, 0x98BADCFE, 0x10325476, 0xC3D2E1F0) with
  | (h0, h1, h2, h3, h4) => be4 h0 ++ be4 h1 ++ be4 h2 ++ be4 h3 ++ be4 h4

/-! ## HMAC (crypto/hmac) -/

/-- HMAC over byte lists; `H` is the hash, `blockSize` its block size
(64 for SHA-1).  As in `hmac.New`: a key longer than the block size is
hashed first, then zero-padded to the block size. -/
def hmac (H : List ℕ → List ℕ) (blockSize : ℕ) (key msg : List ℕ) : List ℕ :=
  let k0 := if blockSize < key.length then H key else key
  let kp := k0 ++ List.replicate (blockSize - k0.length) 0
  H ((kp.map (fun b => b ^^^ 0x5c)) ++ H ((kp.map (fun b => b ^^^ 0x36)) ++ msg))

/-! ## The `OneTimePassword` configuration and the code engine

Go's `time.Time` values are modelled as `ℤ` nanoseconds since the Unix
epoch, and `time.Duration` as `ℤ` nanoseconds.  Go's `hash.Hash` factory is
modelled as a byte-list hash function plus its HMAC block size (Go reads the
block size from the `hash.Hash` instance). -/

/-- `OneTimePassword` stores the configuration values relevant to HOTP/TOTP
calculations (digit count, step length in ns, base time in ns since epoch,
hash function and its block size). -/
structure OneTimePassword where
  Digit : ℕ
  TimeStep : ℤ
  BaseTime : ℤ
  Hash : List ℕ → List ℕ
  Block : ℕ

/-- `New` returns a `OneTimePassword` with the given code length, SHA-1,
the Unix epoch base time and a 30-second step, or the corresponding error
when `digit` is outside `[6, 9]`. -/
def New (digit : ℤ) : Except String OneTimePassword :=
  if digit < 6 then
    .error "minimum of 6 digits is required for a valid HTOP code"
  else if digit > 9 then
    .error "HTOP code cannot be longer than 9 digits"
  else
    .ok ⟨digit.toNat, 30 * 10 ^ 9, 0, sha1Hash, 64⟩

namespace OneTimePassword

/-- `hmacSum` computes `HMAC(Hash, secret, bigEndian8(count))`. -/
def hmacSum (otp : OneTimePassword) (secret : List ℕ) (count : ℕ) : List ℕ :=
  hmac otp.Hash otp.Block secret (be8 count)

end OneTimePassword

/-- Dynamic truncation (`dt` in the source): `offset = hs[len-1] & 0xf`,
take the 4 bytes `hs[offset : offset+4]` and clear the top bit of the first.
The Go slice expression panics when `offset + 4 > len hs`; here the slice is
taken with `drop`/`take` (total), and `dtSafe` below states the in-bounds
condition under which both agree and Go cannot panic. -/
def dt (hs : List ℕ) : List ℕ :=
  let offset := hs.getD (hs.length - 1) 0 &&& 0xf
  match (hs.drop offset).take 4 with
  | [] => []
  | b0 :: rest => (b0 &&& 0x7f) :: rest

/-- The dynamic-truncation offset `hs[len-1] & 0xf`. -/
def dtOffset (hs : List ℕ) : ℕ := hs.getD (hs.length - 1) 0 &&& 0xf

/-- In-bounds condition of the slice `hs[offset : offset+4]` taken by `dt`. -/
def dtSafe (hs : List ℕ) : Prop := dtOffset hs + 4 ≤ hs.length

namespace OneTimePassword

/-- `truncate`: big-endian 32-bit integer of the 4 `dt` bytes, reduced
modulo `10^Digit`.  The Go source computes the modulus as
`uint(math.Pow(10, float64(otp.Digit)))`; for `Digit ≤ 15` (in particular
for the constructor-enforced range `[6, 9]`) `math.Pow(10, d)` is the exact
float `10^d`, so the modulus is exactly `10^Digit`. -/
def truncate (otp : OneTimePassword) (hs : List ℕ) : ℕ :=
  let sbits := dt hs
  let snum := sbits.getD 3 0 ||| sbits.getD 2 0 <<< 8
      ||| sbits.getD 1 0 <<< 16 ||| sbits.getD 0 0 <<< 24
  snum % 10 ^ otp.Digit

/-- `HOTP` returns a HOTP code with the given secret and counter. -/
def HOTP (otp : OneTimePassword) (secret : List ℕ) (count : ℕ) : ℕ :=
  otp.truncate (otp.hmacSum secret count)

end OneTimePassword

/-! ## Exact model of IEEE-754 binary64 rounding over ℚ

`steps`, `Duration.Seconds` and `GTimeLeft` in the source go through
`float64` arithmetic.  Every value arising there is a finite binary64
number well inside the normal range, so each operation is exactly
"round the exact rational result to 53 significand bits, nearest,
ties to even".  `rnd` implements that rounding map on `ℚ`. -/

/-- Fueled floor of `log₂` (structurally recursive, kernel-reducible). -/
def log2fuel : ℕ → ℕ → ℕ
  | 0, _ => 0
  | f + 1, n => if n < 2 then 0 else log2fuel f (n / 2) + 1

/-- `⌊log₂ n⌋` for `n ≥ 1`. -/
def ilog2 (n : ℕ) : ℕ := log2fuel n n

/-- Fueled ceiling of `log₂` (structurally recursive, kernel-reducible). -/
def clog2fuel : ℕ → ℕ → ℕ
  | 0, _ => 0
  | f + 1, n => if n ≤ 1 then 0 else clog2fuel f ((n + 1) / 2) + 1

/-- `⌈log₂ n⌉` for `n ≥ 1`. -/
def iclog2 (n : ℕ) : ℕ := clog2fuel n n

/-- `2^e` in `ℚ` for an integer exponent, kernel-reducible. -/
def pow2z (e : ℤ) : ℚ :=
  if 0 ≤ e then ((2 ^ e.toNat : ℕ) : ℚ) else (((2 ^ (-e).toNat : ℕ) : ℚ))⁻¹

/-- Binary exponent of a positive rational: the unique `e` with
`2^e ≤ q < 2^(e+1)`. -/
def qexp (q : ℚ) : ℤ :=
  if 1 ≤ q then (ilog2 ⌊q⌋.toNat : ℤ) else -(iclog2 ⌈q⁻¹⌉.toNat : ℤ)

/-- Round a rational to the nearest integer, ties to even. -/
def roundNE (x : ℚ) : ℤ :=
  if x - ⌊x⌋ < 1 / 2 then ⌊x⌋
  else if (1 : ℚ) / 2 < x - ⌊x⌋ then ⌊x⌋ + 1
  else if ⌊x⌋ % 2 = 0 then ⌊x⌋ else ⌊x⌋ + 1

/-- Round a rational to the nearest binary64 value (53 significand bits,
nearest, ties to even; overflow and subnormals do not arise for the
magnitudes produced by this program and are not modelled). -/
def rnd (q : ℚ) : ℚ :=
  if q = 0 then 0
  else if q < 0 then
    -(roundNE (-q * pow2z (52 - qexp (-q))) * pow2z (qexp (-q) - 52))
  else roundNE (q * pow2z (52 - qexp q)) * pow2z (qexp q - 52)

/-- Go `float64(n)` for an integer `n`. -/
def flOfInt (n : ℤ) : ℚ := rnd (n : ℚ)

/-- Go `float64` addition. -/
def flAdd (a b : ℚ) : ℚ := rnd (a + b)

/-- Go `float64` division (the divisors arising here are nonzero). -/
def flDiv (a b : ℚ) : ℚ := rnd (a / b)

/-- Go `uint64(x)` for a `float64` value: truncation toward zero.  For the
in-range case `0 ≤ x < 2^64` this is `⌊x⌋`; conversion of out-of-range
values is implementation-specific in Go and is clamped here. -/
def f2u64 (x : ℚ) : ℕ := ⌊x⌋.toNat

/-- `time.Duration.Seconds`:
`float64(d / 1e9) + float64(d % 1e9) / 1e9` computed in `float64`
(`/` and `%` are Go's truncated integer division and remainder). -/
def durationSeconds (d : ℤ) : ℚ :=
  flAdd (flOfInt (d.tdiv (10 ^ 9))) (flDiv (flOfInt (d.tmod (10 ^ 9))) (10 ^ 9))

namespace OneTimePassword

/-- `steps`: `uint64(float64(elapsed) / otp.TimeStep.Seconds())` where
`elapsed := now.Unix() - otp.BaseTime.Unix()`.  A `time.Time` is its
nanosecond count `now`; `Unix()` is the floored second count. -/
def steps (otp : OneTimePassword) (now : ℤ) : ℕ :=
  f2u64 (flDiv (flOfInt (now.fdiv (10 ^ 9) - otp.BaseTime.fdiv (10 ^ 9)))
    (durationSeconds otp.TimeStep))

/-- `TOTP` with the wall-clock instant (`time.Now()`) passed explicitly. -/
def TOTP (otp : OneTimePassword) (secret : List ℕ) (now : ℤ) : ℕ :=
  otp.HOTP secret (otp.steps now)

/-- `GTimeLeft`, with `time.Now()` passed explicitly:
`secStep - (secsSinceBase % secStep)` over `uint64`, where both operands
come from truncated `float64` second counts.  When `secStep = 0` the Go
expression panics with a division by zero; that is modelled as `none`. -/
def GTimeLeft (otp : OneTimePassword) (now : ℤ) : Option ℕ :=
  if f2u64 (durationSeconds otp.TimeStep) = 0 then none
  else some (f2u64 (durationSeconds otp.TimeStep)
    - f2u64 (durationSeconds (now - otp.BaseTime))
      % f2u64 (durationSeconds otp.TimeStep))

end OneTimePassword

/-! ## Concrete configurations and test data -/

/-- The configuration produced by `New 6`. -/
def otp6 : OneTimePassword := ⟨6, 30 * 10 ^ 9, 0, sha1Hash, 64⟩

/-- The configuration produced by `New 8`. -/
def otp8 : OneTimePassword := ⟨8, 30 * 10 ^ 9, 0, sha1Hash, 64⟩

/-- The ASCII bytes of the RFC 4226 Appendix D secret
`"12345678901234567890"`. -/
def rfcSecret : List ℕ :=
  [49, 50, 51, 52, 53, 54, 55, 56, 57, 48,
   49, 50, 51, 52, 53, 54, 55, 56, 57, 48]

end OTPVerify

namespace OTPVerify

/-! ## base32 decoding (encoding/base32, `StdEncoding.DecodeString`)

Strings are byte lists.  `DecodeString` first strips `\r` and `\n`, then
decodes 8-symbol quantums; on a decode error it returns the bytes decoded
from the quantums before the error together with `CorruptInputError(pos)`
(modelled as `some pos`). -/

/-- Newline stripping done by `DecodeString` before decoding. -/
def stripNewlines (s : List ℕ) : List ℕ :=
  s.filter (fun c => !(c == 13 || c == 10))

/-- The standard base32 alphabet's decode map: `A`-`Z` are 0-25, `2`-`7`
are 26-31, everything else is `0xFF` (invalid). -/
def b32val (c : ℕ) : ℕ :=
  if 65 ≤ c ∧ c ≤ 90 then c - 65
  else if 50 ≤ c ∧ c ≤ 55 then c - 24
  else 255

/-- The padding-check loop: the first index `k < limit` with
`k < len(rest)` and `rest[k] ≠ '='`, if any. -/
def b32padBad (limit : ℕ) (rest : List ℕ) : Option ℕ :=
  (List.range limit).find? fun k =>
    decide (k < rest.length) && decide (rest.getD k 0 ≠ 61)

/-- Read one quantum of up to 8 symbols (`j` symbols already read, `k`
symbols still allowed, `k + j = 8`).  Returns the 5-bit digits, `dlen`,
the remaining input and the end flag, or the `CorruptInputError` offset. -/
def b32quant (olen : ℕ) : ℕ → ℕ → List ℕ → List ℕ →
    Except ℕ (List ℕ × ℕ × List ℕ × Bool)
  | 0, _, buf, src => .ok (buf, 8, src, false)
  | k + 1, j, buf, src =>
    match src with
    | [] => .error (olen - j)
    | c :: rest =>
      if c = 61 ∧ 2 ≤ j ∧ rest.length < 8 then
        if rest.length + j < 7 then .error olen
        else
          match b32padBad (7 - j) rest with
          | some kbad => .error (olen - rest.length + kbad - 1)
          | none =>
            if j = 1 ∨ j = 3 ∨ j = 6 then .error (olen - rest.length - 1)
            else .ok (buf, j, rest, true)
      else
        if b32val c = 255 then .error (olen - rest.length - 1)
        else b32quant olen k (j + 1) (buf ++ [b32val c]) rest

/-- Pack `dlen` 5-bit digits into bytes (the fallthrough `switch` of the Go
decoder: 8 digits give 5 bytes, 7 give 4, 5 give 3, 4 give 2, 2 give 1). -/
def b32pack (d : List ℕ) (dlen : ℕ) : List ℕ :=
  (if 2 ≤ dlen then [(d.getD 0 0 <<< 3 ||| d.getD 1 0 >>> 2) % 256] else []) ++
  (if 4 ≤ dlen then
    [(d.getD 1 0 <<< 6 ||| d.getD 2 0 <<< 1 ||| d.getD 3 0 >>> 4) % 256] else []) ++
  (if 5 ≤ dlen then [(d.getD 3 0 <<< 4 ||| d.getD 4 0 >>> 1) % 256] else []) ++
  (if 7 ≤ dlen then
    [(d.getD 4 0 <<< 7 ||| d.getD 5 0 <<< 2 ||| d.getD 6 0 >>> 3) % 256] else []) ++
  (if 8 ≤ dlen then [(d.getD 6 0 <<< 5 ||| d.getD 7 0) % 256] else [])

/-- The decoder's outer loop (fueled; each iteration consumes at least one
input byte).  Bytes decoded before an error are kept; input after a padded
final quantum is ignored. -/
def b32outer (olen : ℕ) : ℕ → List ℕ → List ℕ × Option ℕ
  | 0, _ => ([], none)
  | fuel + 1, src =>
    if src.isEmpty then ([], none)
    else
      match b32quant olen 8 0 [] src with
      | .error e => ([], some e)
      | .ok (buf, dlen, rest, endF) =>
        if endF then (b32pack buf dlen, none)
        else
          match b32outer olen fuel rest with
          | (more, err) => (b32pack buf dlen ++ more, err)

/-- `base32.StdEncoding.DecodeString` on newline-stripped input. -/
def b32decode (src : List ℕ) : List ℕ × Option ℕ :=
  b32outer src.length src.length src

/-! ## `strconv.FormatUint(·, 10)` and the `%06s` format -/

/-- Decimal digits of `n` as ASCII bytes (fueled division loop). -/
def toDecGo : ℕ → ℕ → List ℕ
  | 0, n => [48 + n % 10]
  | fuel + 1, n => if n < 10 then [48 + n] else toDecGo fuel (n / 10) ++ [48 + n % 10]

/-- `strconv.FormatUint(n, 10)`. -/
def formatUint (n : ℕ) : List ℕ := toDecGo n n

/-- `fmt.Sprintf("%06s", s)`: left-pad with `'0'` to width 6. -/
def sprintf06 (s : List ℕ) : List ℕ := List.replicate (6 - s.length) 48 ++ s

namespace OneTimePassword

/-- `GOTP`: decode the base32 secret, then format the TOTP code with
`%06s`.  As in the source, the code is computed and returned even when
decoding failed (the error is returned alongside it). -/
def GOTP (otp : OneTimePassword) (secret : List ℕ) (now : ℤ) :
    List ℕ × Option ℕ :=
  (sprintf06 (formatUint (otp.TOTP (b32decode (stripNewlines secret)).1 now)),
   (b32decode (stripNewlines secret)).2)

end OneTimePassword

/-! ## `PPrint` (grouped formatting) and `strings.TrimSpace`

`PPrint` is a method whose receiver is unused; it slices the code three
BYTES at a time.  `TrimSpace` is modelled on its ASCII fast path (the
whitespace bytes 9-13 and 32); the model is faithful for ASCII input. -/

/-- The ASCII white-space bytes trimmed by `strings.TrimSpace`. -/
def isSpaceByte (c : ℕ) : Bool :=
  c == 9 || c == 10 || c == 11 || c == 12 || c == 13 || c == 32

/-- `strings.TrimSpace` on ASCII byte strings. -/
def trimSpace (s : List ℕ) : List ℕ :=
  ((s.dropWhile isSpaceByte).reverse.dropWhile isSpaceByte).reverse

/-- The chunking loop of `PPrint`: while at least 3 bytes remain, emit a
3-byte chunk followed by a space; then append the remainder. -/
def pprintGo : List ℕ → List ℕ
  | a :: b :: c :: rest => a :: b :: c :: 32 :: pprintGo rest
  | rest => rest

/-- `PPrint`: the chunked string with surrounding white space trimmed. -/
def PPrint (code : List ℕ) : List ℕ := trimSpace (pprintGo code)

/-- Modelled from the spec's words (the claimed decomposition, to compare
with `PPrint`): 3-character chunks taken from the left, the final group
holding the 1- or 2-character remainder. -/
def chunks3 : List ℕ → List (List ℕ)
  | [] => []
  | [a] => [[a]]
  | [a, b] => [[a, b]]
  | a :: b :: c :: rest => [a, b, c] :: chunks3 rest

/-- Modelled from the spec's words: groups joined by single spaces. -/
def joinSp : List (List ℕ) → List ℕ
  | [] => []
  | [x] => x
  | x :: xs => x ++ 32 :: joinSp xs

/-- The base32 encoding (ASCII bytes) of the RFC 4226 test secret
`"12345678901234567890"`: `GEZDGNBVGY3TQOJQGEZDGNBVGY3TQOJQ`. -/
def gKey : List ℕ :=
  [71, 69, 90, 68, 71, 78, 66, 86, 71, 89, 51, 84, 81, 79, 74, 81,
   71, 69, 90, 68, 71, 78, 66, 86, 71, 89, 51, 84, 81, 79, 74, 81]

end OTPVerify

namespace OTPVerify

/-! ## Basic facts about the binary64 rounding model -/

lemma natPow_cast_zpow (k : ℕ) : ((2 ^ k : ℕ) : ℚ) = (2 : ℚ) ^ (k : ℤ) := by
  rw [zpow_natCast]
  push_cast
  rfl

lemma pow2z_eq (e : ℤ) : pow2z e = (2 : ℚ) ^ e := by
  unfold pow2z
  split
  · rename_i h
    rw [natPow_cast_zpow, Int.toNat_of_nonneg h]
  · rename_i h
    rw [natPow_cast_zpow, Int.toNat_of_nonneg (by omega : (0:ℤ) ≤ -e), ← zpow_neg,
      neg_neg]

lemma pow2z_pos (e : ℤ) : 0 < pow2z e := by
  rw [pow2z_eq]; positivity

lemma log2fuel_spec : ∀ f n, 1 ≤ n → n ≤ f →
    2 ^ log2fuel f n ≤ n ∧ n < 2 ^ (log2fuel f n + 1)
  | 0, n => by omega
  | f + 1, n => by
    intro h1 hf
    by_cases h2 : n < 2
    · have hn : n = 1 := by omega
      simp [log2fuel, h2, hn]
    · have hrec := log2fuel_spec f (n / 2) (by omega) (by omega)
      simp only [log2fuel, if_neg h2]
      set k := log2fuel f (n / 2) with hk
      have e1 : 2 ^ (k + 1 + 1) = 2 * 2 ^ (k + 1) := by ring
      have e2 : 2 ^ (k + 1) = 2 * 2 ^ k := by ring
      omega

lemma ilog2_spec (n : ℕ) (h : 1 ≤ n) :
    2 ^ ilog2 n ≤ n ∧ n < 2 ^ (ilog2 n + 1) :=
  log2fuel_spec n n h le_rfl

lemma clog2fuel_ge : ∀ f n, n ≤ f → n ≤ 2 ^ clog2fuel f n
  | 0, n => by
    intro hf
    have h0 : n = 0 := by omega
    subst h0
    exact Nat.zero_le _
  | f + 1, n => by
    intro hf
    by_cases h1 : n ≤ 1
    · simp only [clog2fuel, if_pos h1]
      omega
    · have hrec := clog2fuel_ge f ((n + 1) / 2) (by omega)
      simp only [clog2fuel, if_neg h1]
      set k := clog2fuel f ((n + 1) / 2) with hk
      have e2 : 2 ^ (k + 1) = 2 * 2 ^ k := by ring
      omega

lemma clog2fuel_le : ∀ f n j, n ≤ f → n ≤ 2 ^ j → clog2fuel f n ≤ j
  | 0, n, j => by
    intro hf hj
    simp [clog2fuel]
  | f + 1, n, j => by
    intro hf hj
    by_cases h1 : n ≤ 1
    · simp [clog2fuel, h1]
    · have hj1 : 1 ≤ j := by
        by_contra hc
        have : j = 0 := by omega
        subst this
        simp at hj
        omega
      have hpowj : 2 ^ j = 2 * 2 ^ (j - 1) := by
        rw [← pow_succ']
        congr 1
        omega
      have hstep : (n + 1) / 2 ≤ 2 ^ (j - 1) := by omega
      have hrec := clog2fuel_le f ((n + 1) / 2) (j - 1) (by omega) hstep
      simp only [clog2fuel, if_neg h1]
      omega

lemma iclog2_ge (n : ℕ) : n ≤ 2 ^ iclog2 n := clog2fuel_ge n n le_rfl

lemma iclog2_le (n j : ℕ) (h : n ≤ 2 ^ j) : iclog2 n ≤ j :=
  clog2fuel_le n n j le_rfl h

/-- The defining property of `qexp`: `2 ^ qexp q ≤ q < 2 ^ (qexp q + 1)`. -/
lemma qexp_spec (q : ℚ) (hq : 0 < q) :
    (2 : ℚ) ^ qexp q ≤ q ∧ q < (2 : ℚ) ^ (qexp q + 1) := by
  unfold qexp
  split
  · rename_i h1
    have hfl : 1 ≤ ⌊q⌋ := Int.le_floor.2 (by exact_mod_cast h1)
    set n := ⌊q⌋.toNat with hn
    have hn1 : 1 ≤ n := by omega
    have hcast : (⌊q⌋ : ℚ) = (n : ℚ) := by
      rw [hn]
      norm_cast
      omega
    obtain ⟨hlo, hhi⟩ := ilog2_spec n hn1
    refine ⟨?_, ?_⟩
    · calc (2:ℚ) ^ ((ilog2 n : ℕ) : ℤ) = ((2 ^ ilog2 n : ℕ) : ℚ) :=
            (natPow_cast_zpow _).symm
        _ ≤ (n : ℚ) := by exact_mod_cast hlo
        _ = (⌊q⌋ : ℚ) := hcast.symm
        _ ≤ q := Int.floor_le q
    · calc q < (⌊q⌋ : ℚ) + 1 := Int.lt_floor_add_one q
        _ = (n : ℚ) + 1 := by rw [hcast]
        _ ≤ ((2 ^ (ilog2 n + 1) : ℕ) : ℚ) := by exact_mod_cast hhi
        _ = (2:ℚ) ^ (((ilog2 n : ℕ) : ℤ) + 1) := by
            rw [natPow_cast_zpow,
              show (((ilog2 n + 1 : ℕ)) : ℤ) = ((ilog2 n : ℕ) : ℤ) + 1 by omega]
  · rename_i h1
    have hq1 : q < 1 := not_le.1 h1
    have hinv : 1 < q⁻¹ := (one_lt_inv₀ hq).2 hq1
    have hceil : 2 ≤ ⌈q⁻¹⌉ := by
      have := Int.lt_ceil.2 (show ((1:ℤ):ℚ) < q⁻¹ by exact_mod_cast hinv)
      omega
    set c := ⌈q⁻¹⌉.toNat with hc
    have hc2 : 2 ≤ c := by omega
    have hcastc : (⌈q⁻¹⌉ : ℚ) = (c : ℚ) := by
      rw [hc]
      norm_cast
      omega
    set m := iclog2 c with hm
    have hge : c ≤ 2 ^ m := iclog2_ge c
    have hm1 : 1 ≤ m := by
      rcases Nat.eq_zero_or_pos m with h0 | h0
      · rw [h0] at hge
        omega
      · exact h0
    have hinvle : q⁻¹ ≤ (2:ℚ) ^ ((m : ℕ) : ℤ) := by
      calc q⁻¹ ≤ (⌈q⁻¹⌉ : ℚ) := Int.le_ceil _
        _ = (c : ℚ) := hcastc
        _ ≤ ((2 ^ m : ℕ) : ℚ) := by exact_mod_cast hge
        _ = (2:ℚ) ^ ((m : ℕ) : ℤ) := natPow_cast_zpow _
    refine ⟨?_, ?_⟩
    · rw [zpow_neg]
      exact (inv_le_comm₀ (by positivity) hq).2 hinvle
    · have hlt : (2:ℚ) ^ (((m : ℕ) : ℤ) - 1) < q⁻¹ := by
        by_contra hcon
        push_neg at hcon
        have hle : q⁻¹ ≤ ((2 ^ (m - 1) : ℕ) : ℚ) := by
          calc q⁻¹ ≤ (2:ℚ) ^ (((m:ℕ):ℤ) - 1) := hcon
            _ = (2:ℚ) ^ (((m - 1 : ℕ)) : ℤ) := by
                congr 1
                omega
            _ = ((2 ^ (m - 1) : ℕ) : ℚ) := (natPow_cast_zpow _).symm
        have hcle : c ≤ 2 ^ (m - 1) := by
          have h2 : ⌈q⁻¹⌉ ≤ ((2 ^ (m-1) : ℕ) : ℤ) := Int.ceil_le.2 (by exact_mod_cast hle)
          omega
        have := iclog2_le c (m - 1) hcle
        omega
      calc q = (q⁻¹)⁻¹ := (inv_inv q).symm
        _ < ((2:ℚ) ^ (((m:ℕ):ℤ) - 1))⁻¹ :=
            (inv_lt_inv₀ (by positivity) (by positivity)).2 hlt
        _ = (2:ℚ) ^ (-((m:ℕ):ℤ) + 1) := by
            rw [← zpow_neg]
            congr 1
            ring

end OTPVerify

namespace OTPVerify

/-! ## Rounding error bounds for `rnd` -/

lemma roundNE_intCast (k : ℤ) : roundNE (k : ℚ) = k := by
  unfold roundNE
  norm_num

lemma le_roundNE (x : ℚ) : x - 1 / 2 ≤ (roundNE x : ℚ) := by
  have h1 := Int.floor_le x
  have h2 := Int.lt_floor_add_one x
  unfold roundNE
  split_ifs with ha hb hc <;> push_cast <;> linarith

lemma roundNE_le (x : ℚ) : (roundNE x : ℚ) ≤ x + 1 / 2 := by
  have h1 := Int.floor_le x
  have h2 := Int.lt_floor_add_one x
  unfold roundNE
  split_ifs with ha hb hc <;> push_cast <;> linarith

lemma rnd_pos_eq (q : ℚ) (hq : 0 < q) :
    rnd q = roundNE (q * pow2z (52 - qexp q)) * pow2z (qexp q - 52) := by
  unfold rnd
  rw [if_neg hq.ne', if_neg (not_lt.2 hq.le)]

lemma pow2z_mul_inv (e : ℤ) : pow2z (52 - e) * pow2z (e - 52) = 1 := by
  rw [pow2z_eq, pow2z_eq, ← zpow_add₀ (by norm_num : (2:ℚ) ≠ 0)]
  norm_num

lemma pow2z_half (e : ℤ) : pow2z (e - 52) / 2 = pow2z (e - 53) := by
  rw [pow2z_eq, pow2z_eq, div_eq_iff (by norm_num : (2:ℚ) ≠ 0),
    ← zpow_add_one₀ (by norm_num : (2:ℚ) ≠ 0)]
  congr 1
  ring

lemma rnd_le (q : ℚ) (hq : 0 < q) : rnd q ≤ q + pow2z (qexp q - 53) := by
  rw [rnd_pos_eq q hq]
  have h := roundNE_le (q * pow2z (52 - qexp q))
  have hp := pow2z_pos (qexp q - 52)
  calc (roundNE (q * pow2z (52 - qexp q)) : ℚ) * pow2z (qexp q - 52)
      ≤ (q * pow2z (52 - qexp q) + 1 / 2) * pow2z (qexp q - 52) :=
        mul_le_mul_of_nonneg_right h hp.le
    _ = q * (pow2z (52 - qexp q) * pow2z (qexp q - 52)) + pow2z (qexp q - 52) / 2 := by
        ring
    _ = q + pow2z (qexp q - 53) := by
        rw [pow2z_mul_inv, pow2z_half]
        ring

lemma rnd_ge (q : ℚ) (hq : 0 < q) : q - pow2z (qexp q - 53) ≤ rnd q := by
  rw [rnd_pos_eq q hq]
  have h := le_roundNE (q * pow2z (52 - qexp q))
  have hp := pow2z_pos (qexp q - 52)
  calc q - pow2z (qexp q - 53)
      = (q * pow2z (52 - qexp q) - 1 / 2) * pow2z (qexp q - 52) := by
        rw [sub_mul, mul_assoc, pow2z_mul_inv]
        rw [show (1:ℚ) / 2 * pow2z (qexp q - 52) = pow2z (qexp q - 52) / 2 by ring,
          pow2z_half]
        ring
    _ ≤ (roundNE (q * pow2z (52 - qexp q)) : ℚ) * pow2z (qexp q - 52) :=
        mul_le_mul_of_nonneg_right h hp.le

lemma rnd_zero : rnd 0 = 0 := by
  unfold rnd
  norm_num

lemma qexp_lt_of_lt (q : ℚ) (hq : 0 < q) (j : ℤ) (h : q < (2:ℚ) ^ j) :
    qexp q < j := by
  have hs := (qexp_spec q hq).1
  have h2 : (2:ℚ) ^ qexp q < (2:ℚ) ^ j := lt_of_le_of_lt hs h
  exact (zpow_right_strictMono₀ (by norm_num : (1:ℚ) < 2)).lt_iff_lt.1 h2

lemma rnd_nonneg (q : ℚ) (hq : 0 ≤ q) : 0 ≤ rnd q := by
  rcases eq_or_lt_of_le hq with h0 | h0
  · rw [← h0, rnd_zero]
  · have hge := rnd_ge q h0
    have hlow := (qexp_spec q h0).1
    have hmono : pow2z (qexp q - 53) < (2:ℚ) ^ qexp q := by
      rw [pow2z_eq]
      exact zpow_lt_zpow_right₀ (by norm_num) (by omega)
    linarith

/-- `rnd` is exact on integers below `2^53`. -/
lemma pow_mul_pow2z (k : ℕ) (e : ℤ) (h : (k : ℤ) + e = 0) :
    ((2:ℚ) ^ k) * pow2z e = 1 := by
  rw [pow2z_eq, ← zpow_natCast (2:ℚ) k, ← zpow_add₀ (by norm_num : (2:ℚ) ≠ 0), h]
  norm_num

lemma rnd_natCast (n : ℕ) (h : n < 2 ^ 53) : rnd (n : ℚ) = n := by
  rcases Nat.eq_zero_or_pos n with h0 | h0
  · subst h0
    simpa using rnd_zero
  · have hq : (0:ℚ) < n := by exact_mod_cast h0
    have h53 : (n : ℚ) < (2:ℚ) ^ (53 : ℤ) := by
      calc (n : ℚ) < ((2 ^ 53 : ℕ) : ℚ) := by exact_mod_cast h
        _ = (2:ℚ) ^ ((53 : ℕ) : ℤ) := natPow_cast_zpow _
        _ = (2:ℚ) ^ (53 : ℤ) := by norm_num
    have he52 : qexp (n : ℚ) ≤ 52 := by
      have := qexp_lt_of_lt (n : ℚ) hq 53 h53
      omega
    set e := qexp (n : ℚ) with he
    set k := (52 - e).toNat with hk
    have hkz : (k : ℤ) = 52 - e := Int.toNat_of_nonneg (by omega)
    have hc : pow2z (52 - e) = ((2 ^ k : ℕ) : ℚ) := by
      rw [natPow_cast_zpow, hkz, pow2z_eq]
    have harg : (n : ℚ) * pow2z (52 - e) = (((n * 2 ^ k : ℕ) : ℤ) : ℚ) := by
      rw [hc]
      push_cast
      ring
    rw [rnd_pos_eq _ hq, ← he, harg, roundNE_intCast]
    push_cast
    rw [mul_assoc, pow_mul_pow2z k (e - 52) (by omega), mul_one]

/-- Rounding preserves the integer part, given the margin hypothesis that the
true value is at least half an ulp away from the next integer. -/
lemma rnd_floor_eq (q : ℚ) (hq : 0 < q) (h53 : q < (2:ℚ) ^ (53 : ℤ))
    (hmar : (⌊q⌋ : ℚ) ≠ q → q + pow2z (qexp q - 53) < (⌊q⌋ : ℚ) + 1) :
    ⌊rnd q⌋ = ⌊q⌋ := by
  have he52 : qexp q ≤ 52 := by
    have := qexp_lt_of_lt q hq 53 h53
    omega
  set e := qexp q with he
  set k := (52 - e).toNat with hk
  have hkz : (k : ℤ) = 52 - e := Int.toNat_of_nonneg (by omega)
  have hc : pow2z (52 - e) = ((2 ^ k : ℕ) : ℚ) := by
    rw [natPow_cast_zpow, hkz, pow2z_eq]
  have hpowk : ((2:ℚ) ^ k) * pow2z (e - 52) = 1 :=
    pow_mul_pow2z k (e - 52) (by omega)
  set J := ⌊q⌋ with hJ
  have hJ0 : 0 ≤ J := Int.floor_nonneg.2 hq.le
  by_cases hint : (J : ℚ) = q
  · -- exactly representable: rnd q = q
    have harg : q * pow2z (52 - e) = ((J * 2 ^ k : ℤ) : ℚ) := by
      rw [hc, ← hint]
      push_cast
      ring
    rw [rnd_pos_eq _ hq, ← he, harg, roundNE_intCast]
    have hval : ((J * 2 ^ k : ℤ) : ℚ) * pow2z (e - 52) = (J : ℚ) := by
      push_cast
      rw [mul_assoc, hpowk, mul_one]
    rw [hval, Int.floor_intCast]
  · have hmargin := hmar hint
    have hup : rnd q < (J : ℚ) + 1 := lt_of_le_of_lt (by
      have := rnd_le q hq
      rw [← he] at this
      exact this) hmargin
    -- lower bound: rnd q ≥ J
    have hdown : (J : ℚ) ≤ rnd q := by
      have hR := le_roundNE (q * pow2z (52 - e))
      have hqJ : (J : ℚ) ≤ q := Int.floor_le q
      have hc0 : (0:ℚ) < pow2z (52 - e) := pow2z_pos _
      have hs0 : (0:ℚ) < pow2z (e - 52) := pow2z_pos _
      have h1 : ((J * 2 ^ k : ℤ) : ℚ) ≤ q * pow2z (52 - e) := by
        rw [hc]
        push_cast
        exact mul_le_mul_of_nonneg_right hqJ (by positivity)
      have hZ : ((J * 2 ^ k - 1 : ℤ) : ℚ) < ((roundNE (q * pow2z (52 - e)) : ℤ) : ℚ) := by
        push_cast
        push_cast at h1
        linarith
      have hZint : J * 2 ^ k ≤ roundNE (q * pow2z (52 - e)) := by
        have hx : J * 2 ^ k - 1 < roundNE (q * pow2z (52 - e)) := by exact_mod_cast hZ
        omega
      calc (J : ℚ) = ((J * 2 ^ k : ℤ) : ℚ) * pow2z (e - 52) := by
            push_cast
            rw [mul_assoc, hpowk, mul_one]

        _ ≤ (roundNE (q * pow2z (52 - e)) : ℚ) * pow2z (e - 52) := by
            apply mul_le_mul_of_nonneg_right _ hs0.le
            exact_mod_cast hZint
        _ = rnd q := by rw [rnd_pos_eq _ hq, ← he]
    exact Int.floor_eq_iff.2 ⟨hdown, by exact_mod_cast hup⟩

end OTPVerify

namespace OTPVerify

/-! ## Behaviour of `durationSeconds`, `steps` and `GTimeLeft` -/

lemma pow2z_mono {a b : ℤ} (h : a ≤ b) : pow2z a ≤ pow2z b := by
  rw [pow2z_eq, pow2z_eq]
  exact zpow_le_zpow_right₀ (by norm_num) h

lemma rnd_intCast_nonneg (n : ℤ) (h0 : 0 ≤ n) (h : n < 2 ^ 53) :
    rnd (n : ℚ) = n := by
  have hnn : ((n.toNat : ℕ) : ℤ) = n := Int.toNat_of_nonneg h0
  have h1 : ((n.toNat : ℕ) : ℚ) = (n : ℚ) := by exact_mod_cast hnn
  have h2 : n.toNat < 2 ^ 53 := by omega
  rw [← h1, rnd_natCast _ h2]

/-- `Duration.Seconds` of a whole number of seconds is exact. -/
lemma durationSeconds_whole (s : ℕ) (h2 : s ≤ 2 ^ 34) :
    durationSeconds ((s : ℤ) * 10 ^ 9) = (s : ℚ) := by
  unfold durationSeconds flOfInt flDiv flAdd
  rw [Int.mul_tdiv_cancel _ (by norm_num), Int.mul_tmod_left]
  rw [Int.cast_zero, rnd_zero, zero_div, rnd_zero, add_zero]
  have hs53 : (s : ℤ) < 2 ^ 53 := by
    calc (s : ℤ) ≤ 2 ^ 34 := by exact_mod_cast h2
      _ < 2 ^ 53 := by norm_num
  have hr := rnd_intCast_nonneg (s:ℤ) (by positivity) hs53
  rw [hr, hr]
  exact Int.cast_natCast _

/-- Truncated rounding of the exact rational quotient of naturals gives the
floored quotient, as long as the numerator stays below `2^53`. -/
lemma floor_rnd_div (E s : ℕ) (hs1 : 1 ≤ s) (hE : E < 2 ^ 53) :
    ⌊rnd ((E : ℚ) / (s : ℚ))⌋ = ((E / s : ℕ) : ℤ) := by
  rcases Nat.eq_zero_or_pos E with h0 | h0
  · subst h0
    norm_num [rnd_zero]
  · have hs0 : (0:ℚ) < (s : ℚ) := by exact_mod_cast hs1
    set q : ℚ := (E : ℚ) / (s : ℚ) with hqdef
    have hq : 0 < q := by positivity
    have hq53 : q < (2:ℚ) ^ (53 : ℤ) := by
      have h1 : q ≤ (E : ℚ) := by
        rw [hqdef]
        exact div_le_self (by positivity) (by exact_mod_cast hs1)
      have h2 : (E : ℚ) < (2:ℚ) ^ (53 : ℤ) := by
        calc (E : ℚ) < ((2 ^ 53 : ℕ) : ℚ) := by exact_mod_cast hE
          _ = (2:ℚ) ^ ((53:ℕ) : ℤ) := natPow_cast_zpow _
          _ = (2:ℚ) ^ (53 : ℤ) := by norm_num
      linarith
    have hmod : s * (E / s) + E % s = E := Nat.div_add_mod E s
    have hmodlt : E % s < s := Nat.mod_lt _ (by omega)
    have hfl : ⌊q⌋ = ((E / s : ℕ) : ℤ) := by
      rw [Int.floor_eq_iff]
      constructor
      · rw [hqdef, le_div_iff₀ hs0]
        have hx : (E / s) * s ≤ E := Nat.div_mul_le_self E s
        push_cast
        exact_mod_cast hx
      · rw [hqdef, div_lt_iff₀ hs0]
        have hdm : E / s * s + E % s = E := Nat.div_add_mod' E s
        have hx : E < (E / s + 1) * s := by
          calc E = E / s * s + E % s := hdm.symm
            _ < E / s * s + s := by omega
            _ = (E / s + 1) * s := by ring
        push_cast
        exact_mod_cast hx
    rw [← hfl]
    apply rnd_floor_eq q hq hq53
    intro hne
    rw [hfl]
    -- the fractional part is at least 1/s, while the half-ulp is below 1/s
    have hr1 : 1 ≤ E % s := by
      by_contra hc
      have h00 : E % s = 0 := by omega
      apply hne
      rw [hfl, hqdef, eq_div_iff hs0.ne']
      have hdm2 : E / s * s + E % s = E := Nat.div_add_mod' E s
      have hdvd2 : E / s * s = E := by omega
      calc (((E / s : ℕ) : ℤ) : ℚ) * (s : ℚ)
          = ((E / s * s : ℕ) : ℚ) := by
            rw [Int.cast_natCast]
            push_cast
            ring
        _ = (E : ℚ) := by rw [hdvd2]
    have hcast2 : ((E / s : ℕ) : ℚ) * (s:ℚ) = (E:ℚ) - ((E % s : ℕ) : ℚ) := by
      have hsub : (s * (E / s) : ℕ) = E - E % s := by omega
      calc ((E / s : ℕ) : ℚ) * (s:ℚ) = ((s * (E / s) : ℕ) : ℚ) := by push_cast; ring
        _ = ((E - E % s : ℕ) : ℚ) := by rw [hsub]
        _ = (E:ℚ) - ((E % s : ℕ) : ℚ) := by
            rw [Nat.cast_sub (Nat.mod_le _ _)]
    have hmar1 : (1:ℚ) / (s:ℚ) ≤ ((E / s : ℕ) : ℚ) + 1 - q := by
      rw [hqdef, div_le_iff₀ hs0]
      have hexp : (((E / s : ℕ) : ℚ) + 1 - (E:ℚ)/(s:ℚ)) * (s:ℚ)
          = ((E / s : ℕ) : ℚ) * (s:ℚ) + (s:ℚ) - (E:ℚ) := by
        field_simp
        ring
      rw [hexp, hcast2]
      have hle : ((E % s + 1 : ℕ) : ℚ) ≤ (s:ℚ) := by exact_mod_cast hmodlt
      push_cast at hle
      linarith
    have hulp : pow2z (qexp q - 53) < 1 / (s : ℚ) := by
      have ha : pow2z (qexp q - 53) = pow2z (qexp q) * pow2z (-53) := by
        rw [pow2z_eq, pow2z_eq, pow2z_eq, ← zpow_add₀ (by norm_num : (2:ℚ) ≠ 0),
          show qexp q + -53 = qexp q - 53 by ring]
      have hb : pow2z (qexp q) ≤ q := by
        rw [pow2z_eq]
        exact (qexp_spec q hq).1
      have hc : pow2z (qexp q - 53) ≤ q * pow2z (-53) := by
        rw [ha]
        exact mul_le_mul_of_nonneg_right hb (pow2z_pos _).le
      have hp53 : pow2z (-53) = ((2:ℚ) ^ (53:ℕ))⁻¹ := by
        rw [pow2z_eq, zpow_neg, ← zpow_natCast (2:ℚ) 53]
        norm_num
      have hE53q : (E:ℚ) < (2:ℚ) ^ (53:ℕ) := by
        have : (E:ℚ) < ((2 ^ 53 : ℕ) : ℚ) := by exact_mod_cast hE
        push_cast at this
        linarith
      have hd : q * pow2z (-53) < 1 / (s : ℚ) := by
        rw [hp53, hqdef]
        have hrewrite : (E:ℚ) / (s:ℚ) * ((2:ℚ) ^ (53:ℕ))⁻¹
            = (E:ℚ) / ((s:ℚ) * (2:ℚ) ^ (53:ℕ)) := by
          field_simp
        rw [hrewrite, div_lt_div_iff₀ (by positivity) hs0, one_mul]
        nlinarith
      linarith
    have hpc : (((E / s : ℕ) : ℤ) : ℚ) = ((E / s : ℕ) : ℚ) := Int.cast_natCast _
    rw [hpc]
    linarith

/-- Bounds for the rounded fraction `rnd(nsec / 1e9)`. -/
lemma frac_bounds (nsec : ℕ) (h : nsec < 10 ^ 9) :
    0 ≤ rnd ((nsec : ℚ) / (10 ^ 9 : ℚ)) ∧
    rnd ((nsec : ℚ) / (10 ^ 9 : ℚ)) ≤ 1 - ((10:ℚ) ^ 9)⁻¹ + pow2z (-54) := by
  rcases Nat.eq_zero_or_pos nsec with h0 | h0
  · subst h0
    rw [Nat.cast_zero, zero_div, rnd_zero]
    refine ⟨le_refl 0, ?_⟩
    have hp := pow2z_pos (-54)
    have h1 : ((10:ℚ) ^ 9)⁻¹ ≤ 1 := by norm_num
    linarith
  · set q0 : ℚ := (nsec : ℚ) / (10 ^ 9 : ℚ) with hq0
    have hq0pos : 0 < q0 := by
      rw [hq0]
      positivity
    have hq0lt : q0 ≤ 1 - ((10:ℚ) ^ 9)⁻¹ := by
      rw [hq0, div_le_iff₀ (by positivity)]
      rw [show (1 - ((10:ℚ) ^ 9)⁻¹) * (10:ℚ) ^ 9 = (10:ℚ) ^ 9 - 1 by norm_num]
      have hle : ((nsec + 1 : ℕ) : ℚ) ≤ ((10 ^ 9 : ℕ) : ℚ) := by exact_mod_cast h
      push_cast at hle
      linarith
    have he0 : qexp q0 ≤ -1 := by
      have h1 : q0 < (2:ℚ) ^ (0 : ℤ) := by
        rw [zpow_zero]
        have h2 : ((10:ℚ) ^ 9)⁻¹ > 0 := by positivity
        linarith
      have := qexp_lt_of_lt q0 hq0pos 0 h1
      omega
    refine ⟨rnd_nonneg _ hq0pos.le, ?_⟩
    have h1 := rnd_le q0 hq0pos
    have h2 : pow2z (qexp q0 - 53) ≤ pow2z (-54) := pow2z_mono (by omega)
    linarith

end OTPVerify

namespace OTPVerify

/-! ## The second-plus-fraction rounding pattern of `GTimeLeft` -/

lemma pow2z_neg54_lt : pow2z (-54) < ((10:ℚ) ^ 9)⁻¹ := by
  rw [show pow2z (-54) = (((2 ^ 54 : ℕ) : ℚ))⁻¹ from rfl]
  rw [inv_lt_inv₀ (by positivity) (by positivity)]
  norm_num

lemma pow2z_sum_lt : pow2z (-30) + pow2z (-54) < ((10:ℚ) ^ 9)⁻¹ := by
  rw [show pow2z (-54) = (((2 ^ 54 : ℕ) : ℚ))⁻¹ from rfl,
    show pow2z (-30) = (((2 ^ 30 : ℕ) : ℚ))⁻¹ from rfl]
  norm_num

lemma floor_rnd_sec_frac (sec nsec : ℕ) (hsec : sec < 2 ^ 24) (hnsec : nsec < 10 ^ 9) :
    ⌊rnd ((sec : ℚ) + rnd ((nsec : ℚ) / (10 ^ 9 : ℚ)))⌋ = (sec : ℤ) := by
  obtain ⟨hf0, hfub⟩ := frac_bounds nsec hnsec
  set frac := rnd ((nsec : ℚ) / (10 ^ 9 : ℚ)) with hfrac
  have hinv1 : ((10:ℚ) ^ 9)⁻¹ ≤ 1 := by norm_num
  have hflt1 : frac < 1 := by
    have := pow2z_neg54_lt
    linarith
  rcases eq_or_lt_of_le hf0 with h0 | h0
  · rw [← h0, add_zero]
    have hr := rnd_natCast sec (lt_trans hsec (by norm_num))
    rw [hr, Int.floor_natCast]
  · set q : ℚ := (sec : ℚ) + frac with hqdef
    have hq : 0 < q := by
      have : (0:ℚ) ≤ (sec : ℚ) := by positivity
      linarith
    have hsecq : (sec : ℚ) + 1 ≤ ((2 ^ 24 : ℕ) : ℚ) := by exact_mod_cast hsec
    have hq24 : q < (2:ℚ) ^ (24 : ℤ) := by
      have h24 : ((2 ^ 24 : ℕ) : ℚ) = (2:ℚ) ^ (24 : ℤ) := by
        rw [natPow_cast_zpow]
        norm_num
      rw [← h24]
      linarith
    have hq53 : q < (2:ℚ) ^ (53 : ℤ) :=
      lt_trans hq24 (zpow_lt_zpow_right₀ (by norm_num) (by norm_num))
    have he : qexp q ≤ 23 := by
      have := qexp_lt_of_lt q hq 24 hq24
      omega
    have hfl : ⌊q⌋ = (sec : ℤ) := by
      rw [Int.floor_eq_iff]
      constructor
      · push_cast
        linarith
      · push_cast
        linarith
    rw [← hfl]
    apply rnd_floor_eq q hq hq53
    intro _
    rw [hfl]
    have hulp : pow2z (qexp q - 53) ≤ pow2z (-30) := pow2z_mono (by omega)
    have hnum := pow2z_sum_lt
    push_cast
    linarith

end OTPVerify

namespace OTPVerify

/- The arithmetic of `ℚ` is `@[irreducible]` by default; make it reducible
so that concrete rounding computations can be settled by `decide`. -/
attribute [local semireducible] Rat.add Rat.mul Rat.inv Rat.sub

/-! ## Floor of `Duration.Seconds` for sub-`2^24`-second durations -/

lemma tdiv_natCast (n m : ℕ) : ((n : ℤ)).tdiv ((m : ℕ) : ℤ) = ((n / m : ℕ) : ℤ) :=
  (Int.ofNat_tdiv n m).symm

lemma tmod_natCast (n m : ℕ) : ((n : ℤ)).tmod ((m : ℕ) : ℤ) = ((n % m : ℕ) : ℤ) :=
  (Int.ofNat_tmod n m).symm

lemma durationSeconds_floor (d : ℤ) (h0 : 0 ≤ d) (h24 : d < 2 ^ 24 * 10 ^ 9) :
    ⌊durationSeconds d⌋ = ((d.toNat / 10 ^ 9 : ℕ) : ℤ) := by
  have hd : d = ((d.toNat : ℕ) : ℤ) := (Int.toNat_of_nonneg h0).symm
  set n := d.toNat with hn
  have hn24 : n < 2 ^ 24 * 10 ^ 9 := by omega
  unfold durationSeconds flOfInt flDiv flAdd
  rw [hd, show ((10 : ℤ) ^ 9) = ((10 ^ 9 : ℕ) : ℤ) by norm_num,
    tdiv_natCast, tmod_natCast]
  have hsec24 : n / 10 ^ 9 < 2 ^ 24 := by omega
  have hnsec : n % 10 ^ 9 < 10 ^ 9 := Nat.mod_lt _ (by norm_num)
  have hr1 := rnd_intCast_nonneg ((n / 10 ^ 9 : ℕ) : ℤ) (by positivity)
    (by exact_mod_cast lt_trans hsec24 (by norm_num))
  have hr2 := rnd_intCast_nonneg ((n % 10 ^ 9 : ℕ) : ℤ) (by positivity)
    (by exact_mod_cast lt_trans hnsec (by norm_num))
  rw [hr1, hr2, Int.cast_natCast, Int.cast_natCast]
  exact floor_rnd_sec_frac (n / 10 ^ 9) (n % 10 ^ 9) hsec24 hnsec

/-! ## Claim C4 (corrected form) -/

/-- Amended claim C4: for a whole-second positive step duration (at most
`2^34` seconds, covering every `int64` duration) and elapsed whole seconds
in `[0, 2^53)`, `steps` returns `floor(elapsed_seconds / step_seconds)`. -/
theorem claim_C4_amended (otp : OneTimePassword) (now : ℤ) (s : ℕ)
    (hstep : otp.TimeStep = (s : ℤ) * 10 ^ 9) (hs1 : 1 ≤ s) (hs2 : s ≤ 2 ^ 34)
    (hE0 : 0 ≤ now.fdiv (10 ^ 9) - otp.BaseTime.fdiv (10 ^ 9))
    (hE53 : now.fdiv (10 ^ 9) - otp.BaseTime.fdiv (10 ^ 9) < 2 ^ 53) :
    otp.steps now = (now.fdiv (10 ^ 9) - otp.BaseTime.fdiv (10 ^ 9)).toNat / s := by
  unfold OneTimePassword.steps flOfInt flDiv f2u64
  rw [hstep, durationSeconds_whole s hs2]
  set E : ℤ := now.fdiv (10 ^ 9) - otp.BaseTime.fdiv (10 ^ 9) with hE
  have hcast : ((E.toNat : ℕ) : ℚ) = (E : ℚ) := by
    exact_mod_cast Int.toNat_of_nonneg hE0
  rw [rnd_intCast_nonneg E hE0 hE53, ← hcast,
    floor_rnd_div E.toNat s hs1 (by omega)]
  exact Int.toNat_natCast _

/-- Witness for the amended C4 at `New 6`'s configuration, 90 s after the
epoch. -/
theorem claim_C4_amended_witness :
    otp6.TimeStep = (30 : ℤ) * 10 ^ 9 ∧ (1 : ℕ) ≤ 30 ∧ (30 : ℕ) ≤ 2 ^ 34 ∧
    (0 : ℤ) ≤ (90 * 10 ^ 9 : ℤ).fdiv (10 ^ 9) - otp6.BaseTime.fdiv (10 ^ 9) ∧
    otp6.steps (90 * 10 ^ 9) = 3 := by
  have h := claim_C4_amended otp6 (90 * 10 ^ 9) 30 rfl (by norm_num) (by norm_num)
    (by decide) (by decide)
  refine ⟨rfl, by norm_num, by norm_num, by decide, ?_⟩
  rw [h]
  decide

/-- Counterexample to C4 as stated: `steps` disagrees with
`floor(elapsed_seconds / step_seconds)` (i) for the default 30-second step
when the elapsed time is `30·2^50 - 1` seconds (float64 rounds the elapsed
seconds up), and (ii) for the fractional step `1.000000001 s` at elapsed
time `10^9 + 1` seconds (`Seconds()` itself rounds). -/
theorem claim_C4_counterexample :
    otp6.steps ((30 * 2 ^ 50 - 1) * 10 ^ 9) = 2 ^ 50 ∧
    ((30 * 2 ^ 50 - 1) * 10 ^ 9 : ℤ).fdiv (10 ^ 9) - otp6.BaseTime.fdiv (10 ^ 9)
      = 30 * 2 ^ 50 - 1 ∧
    ((30 * 2 ^ 50 - 1 : ℕ)) / 30 = 2 ^ 50 - 1 ∧
    (2 ^ 50 : ℕ) ≠ 2 ^ 50 - 1 ∧
    (⟨6, 10 ^ 9 + 1, 0, sha1Hash, 64⟩ : OneTimePassword).steps
      ((10 ^ 9 + 1) * 10 ^ 9) = 999999999 ∧
    ((10 ^ 9 + 1) * 10 ^ 9 : ℕ) / (10 ^ 9 + 1) = 10 ^ 9 ∧
    (999999999 : ℕ) ≠ 10 ^ 9 :=
  ⟨by decide, by decide, by decide, by decide, by decide, by decide, by decide⟩

end OTPVerify

namespace OTPVerify

section RatRed
attribute [local semireducible] Rat.add Rat.mul Rat.inv Rat.sub

/-! ## Claim C7 (corrected form) and C10 -/

/-- Amended claim C7: for a whole-second positive step and elapsed time in
`[0, 2^24 s)`, `GTimeLeft` returns
`step_seconds - (seconds_since_base % step_seconds)`, always in
`[1, step_seconds]`. -/
theorem claim_C7_amended (otp : OneTimePassword) (now : ℤ) (s : ℕ)
    (hstep : otp.TimeStep = (s : ℤ) * 10 ^ 9) (hs1 : 1 ≤ s) (hs2 : s ≤ 2 ^ 34)
    (hd0 : 0 ≤ now - otp.BaseTime) (hd : now - otp.BaseTime < 2 ^ 24 * 10 ^ 9) :
    otp.GTimeLeft now = some (s - ((now - otp.BaseTime).toNat / 10 ^ 9) % s) ∧
    1 ≤ s - ((now - otp.BaseTime).toNat / 10 ^ 9) % s ∧
    s - ((now - otp.BaseTime).toNat / 10 ^ 9) % s ≤ s := by
  have hmodlt : ((now - otp.BaseTime).toNat / 10 ^ 9) % s < s :=
    Nat.mod_lt _ (by omega)
  have hsecStep : f2u64 (durationSeconds otp.TimeStep) = s := by
    rw [hstep, durationSeconds_whole s hs2]
    unfold f2u64
    rw [Int.floor_natCast]
    exact Int.toNat_natCast _
  have hsecs : f2u64 (durationSeconds (now - otp.BaseTime))
      = (now - otp.BaseTime).toNat / 10 ^ 9 := by
    unfold f2u64
    rw [durationSeconds_floor _ hd0 hd]
    exact Int.toNat_natCast _
  unfold OneTimePassword.GTimeLeft
  rw [hsecStep, hsecs, if_neg (by omega)]
  exact ⟨rfl, by omega, by omega⟩

/-- Witness for the amended C7 at `New 6`'s configuration, 45 s and 123 ns
after the epoch. -/
theorem claim_C7_amended_witness :
    otp6.TimeStep = (30 : ℤ) * 10 ^ 9 ∧
    (0 : ℤ) ≤ (45 * 10 ^ 9 + 123 : ℤ) - otp6.BaseTime ∧
    otp6.GTimeLeft (45 * 10 ^ 9 + 123) = some 15 := by
  have h := claim_C7_amended otp6 (45 * 10 ^ 9 + 123) 30 rfl (by norm_num)
    (by norm_num) (by decide) (by decide)
  refine ⟨rfl, by decide, ?_⟩
  rw [h.1]
  decide

/-- Counterexample to C7 as stated: 2^30 s + 999999999 ns after the epoch,
`float64` rounding pushes the second count up by one, so `GTimeLeft`
returns 25 while `step_seconds - (seconds_since_base % step_seconds)`
is 26. -/
theorem claim_C7_counterexample :
    otp6.GTimeLeft (2 ^ 30 * 10 ^ 9 + 999999999) = some 25 ∧
    30 - (((2 ^ 30 * 10 ^ 9 + 999999999 : ℤ) - otp6.BaseTime).toNat / 10 ^ 9) % 30
      = 26 ∧
    (25 : ℕ) ≠ 26 :=
  ⟨by decide, by decide, by decide⟩

/-- Claim C10: a strictly positive step duration below one second is
truncated to zero whole seconds by `uint64(TimeStep.Seconds())`, and the
modulo in `GTimeLeft` becomes a division by zero (a runtime panic, modelled
as `none`), for every query time. -/
theorem claim_C10 (otp : OneTimePassword) (now : ℤ)
    (h1 : 0 < otp.TimeStep) (h2 : otp.TimeStep < 10 ^ 9) :
    f2u64 (durationSeconds otp.TimeStep) = 0 ∧ otp.GTimeLeft now = none := by
  have hzero : f2u64 (durationSeconds otp.TimeStep) = 0 := by
    have hd : otp.TimeStep = ((otp.TimeStep.toNat : ℕ) : ℤ) :=
      (Int.toNat_of_nonneg h1.le).symm
    set n := otp.TimeStep.toNat with hn
    have hn1 : 1 ≤ n := by omega
    have hn9 : n < 10 ^ 9 := by omega
    unfold durationSeconds flOfInt flDiv flAdd f2u64
    rw [hd, show ((10 : ℤ) ^ 9) = ((10 ^ 9 : ℕ) : ℤ) by norm_num,
      tdiv_natCast, tmod_natCast, Nat.div_eq_of_lt hn9, Nat.mod_eq_of_lt hn9]
    rw [Nat.cast_zero, Int.cast_zero, rnd_zero, zero_add]
    have hr2 := rnd_intCast_nonneg ((n : ℕ) : ℤ) (by positivity)
      (by exact_mod_cast lt_trans hn9 (by norm_num))
    rw [hr2, Int.cast_natCast]
    obtain ⟨hf0, hfub⟩ := frac_bounds n hn9
    set frac := rnd ((n : ℚ) / (10 ^ 9 : ℚ)) with hfrac
    have hinv1 : ((10:ℚ) ^ 9)⁻¹ ≤ 1 := by norm_num
    have h54 := pow2z_neg54_lt
    have hflt1 : frac < 1 := by linarith
    have hv0 : 0 ≤ rnd frac := rnd_nonneg _ hf0
    have hvlt : rnd frac < 1 := by
      rcases eq_or_lt_of_le hf0 with h0 | h0
      · rw [← h0, rnd_zero]
        norm_num
      · have hb := rnd_le frac h0
        have he : qexp frac ≤ -1 := by
          have hq1 : frac < (2:ℚ) ^ (0 : ℤ) := by
            rw [zpow_zero]
            exact hflt1
          have := qexp_lt_of_lt frac h0 0 hq1
          omega
        have hmono : pow2z (qexp frac - 53) ≤ pow2z (-54) := pow2z_mono (by omega)
        have h54x : pow2z (-54) + pow2z (-54) < ((10:ℚ) ^ 9)⁻¹ := by
          rw [show pow2z (-54) = (((2 ^ 54 : ℕ) : ℚ))⁻¹ from rfl]
          norm_num
        linarith
    have hfl : ⌊rnd frac⌋ = 0 := by
      rw [Int.floor_eq_iff]
      constructor
      · exact_mod_cast hv0
      · push_cast
        linarith
    rw [hfl]
    rfl
  refine ⟨hzero, ?_⟩
  unfold OneTimePassword.GTimeLeft
  rw [hzero, if_pos rfl]

/-- Witness for C10 at a half-second step. -/
theorem claim_C10_witness :
    (0 : ℤ) < (⟨6, 5 * 10 ^ 8, 0, sha1Hash, 64⟩ : OneTimePassword).TimeStep ∧
    (⟨6, 5 * 10 ^ 8, 0, sha1Hash, 64⟩ : OneTimePassword).TimeStep < 10 ^ 9 ∧
    (⟨6, 5 * 10 ^ 8, 0, sha1Hash, 64⟩ : OneTimePassword).GTimeLeft 77 = none :=
  ⟨by norm_num, by norm_num,
   (claim_C10 ⟨6, 5 * 10 ^ 8, 0, sha1Hash, 64⟩ 77 (by norm_num) (by norm_num)).2⟩

end RatRed

end OTPVerify

namespace OTPVerify

section RatRed2
attribute [local semireducible] Rat.add Rat.mul Rat.inv Rat.sub

set_option maxRecDepth 40000

/-! ## Claims C5 and C6 -/

/-- Amended claim C5: when the input is not valid base32, `GOTP` returns a
`SecretDecodeError` — but, contrary to the no-partial-results rule, a
computed code string (at least 6 characters, derived from the partially
decoded prefix) accompanies the error.  When the input is valid base32 it
returns a code and no error. -/
theorem claim_C5_amended (otp : OneTimePassword) (secret : List ℕ) (now : ℤ) :
    ((b32decode (stripNewlines secret)).2 ≠ none →
      (otp.GOTP secret now).2 ≠ none ∧ 6 ≤ (otp.GOTP secret now).1.length) ∧
    ((b32decode (stripNewlines secret)).2 = none →
      (otp.GOTP secret now).2 = none) := by
  have hlen : 6 ≤ (otp.GOTP secret now).1.length := by
    show 6 ≤ (sprintf06 _).length
    unfold sprintf06
    rw [List.length_append, List.length_replicate]
    omega
  exact ⟨fun h => ⟨h, hlen⟩, fun h => h⟩

/-- Witness for the amended C5 on the invalid base32 input `"1"`. -/
theorem claim_C5_amended_witness :
    (b32decode (stripNewlines [49])).2 ≠ none ∧
    (otp6.GOTP [49] 0).2 ≠ none ∧ 6 ≤ (otp6.GOTP [49] 0).1.length := by
  have h := (claim_C5_amended otp6 [49] 0).1 (by decide)
  exact ⟨by decide, h.1, h.2⟩

/-- Counterexample to C5 as stated: on the invalid base32 input `"1"` at
the epoch, `GOTP` returns the `SecretDecodeError` (offset 0) together with
the fully computed code `"328482"` — a partial result does accompany the
error. -/
theorem claim_C5_counterexample :
    (otp6.GOTP [49] 0).2 = some 0 ∧
    (otp6.GOTP [49] 0).1 = [51, 50, 56, 52, 56, 50] ∧
    (otp6.GOTP [49] 0).1 ≠ [] :=
  ⟨by decide, by decide, by decide⟩

/-- Claim C6 failing input: with the valid 8-digit configuration `New 8`
and the valid base32 secret `GEZDGNBVGY3TQOJQGEZDGNBVGY3TQOJQ` at 59 s
after the epoch, `GOTP` returns the 8-character code `"94287082"` (and no
error) — not a string of exactly 6 digits, contradicting the claim and
`GOTP`'s own documentation. -/
theorem claim_C6_bug :
    New 8 = Except.ok otp8 ∧
    otp8.GOTP gKey (59 * 10 ^ 9) =
      ([57, 52, 50, 56, 55, 48, 56, 50], none) ∧
    (otp8.GOTP gKey (59 * 10 ^ 9)).1.length ≠ 6 :=
  ⟨rfl, by decide, by decide⟩

/-! ## Claim C9 -/

lemma head_dropWhile_not (p : ℕ → Bool) :
    ∀ (l : List ℕ) (c : ℕ), (l.dropWhile p).head? = some c → p c = false
  | [], c => by simp [List.dropWhile]
  | a :: l, c => by
    by_cases hpa : p a
    · rw [List.dropWhile_cons_of_pos hpa]
      exact head_dropWhile_not p l c
    · rw [List.dropWhile_cons_of_neg hpa]
      intro h
      obtain rfl : a = c := by simpa using h
      simpa using hpa

lemma getLast_dropWhile (p : ℕ → Bool) :
    ∀ (l : List ℕ) (c : ℕ), l.getLast? = some c → p c = false →
      (l.dropWhile p).getLast? = some c
  | [], c => by simp
  | a :: l, c => by
    intro hl hc
    by_cases hpa : p a
    · rw [List.dropWhile_cons_of_pos hpa]
      cases l with
      | nil =>
        obtain rfl : a = c := by simpa using hl
        rw [hc] at hpa
        exact absurd hpa (by simp)
      | cons b tl =>
        have hl' : (b :: tl).getLast? = some c := by
          rwa [List.getLast?_cons_cons] at hl
        exact getLast_dropWhile p (b :: tl) c hl' hc
    · rw [List.dropWhile_cons_of_neg hpa]
      exact hl

lemma dropWhile_eq_self_of_head (p : ℕ → Bool) (l : List ℕ) (c : ℕ)
    (h : l.head? = some c) (hc : p c = false) : l.dropWhile p = l := by
  cases l with
  | nil => simp at h
  | cons a tl =>
    obtain rfl : a = c := by simpa using h
    exact List.dropWhile_cons_of_neg (by simp [hc])

/-- The head of `trimSpace s` is the head of `dropWhile isSpaceByte s`,
hence never a space. -/
lemma trimSpace_head (s : List ℕ) (c : ℕ) (h : (trimSpace s).head? = some c) :
    isSpaceByte c = false := by
  unfold trimSpace at h
  rw [List.head?_reverse] at h
  set x := s.dropWhile isSpaceByte with hx
  rcases hhead : x.head? with _ | d
  · rw [List.head?_eq_none_iff] at hhead
    rw [hhead] at h
    simp at h
  · have hd : isSpaceByte d = false := head_dropWhile_not _ _ _ hhead
    have hrev : x.reverse.getLast? = some d := by
      rw [List.getLast?_reverse]
      exact hhead
    have := getLast_dropWhile isSpaceByte x.reverse d hrev hd
    rw [h] at this
    obtain rfl : c = d := by simpa using this
    exact hd

/-- The last byte of `trimSpace s` is never a space. -/
lemma trimSpace_getLast (s : List ℕ) (c : ℕ)
    (h : (trimSpace s).getLast? = some c) : isSpaceByte c = false := by
  unfold trimSpace at h
  rw [List.getLast?_reverse] at h
  exact head_dropWhile_not _ _ _ h

lemma chunks3_ne_nil (a : ℕ) (l : List ℕ) : chunks3 (a :: l) ≠ [] := by
  match l with
  | [] => simp [chunks3]
  | [b] => simp [chunks3]
  | b :: c :: tl => simp [chunks3]

lemma pprintGo_eq : ∀ l : List ℕ, pprintGo l = joinSp (chunks3 l) ++
    (if l.length % 3 = 0 ∧ l ≠ [] then [32] else [])
  | [] => by simp [pprintGo, chunks3, joinSp]
  | [a] => by simp [pprintGo, chunks3, joinSp]
  | [a, b] => by simp [pprintGo, chunks3, joinSp]
  | a :: b :: c :: rest => by
    have ih := pprintGo_eq rest
    cases rest with
    | nil => simp [pprintGo, chunks3, joinSp]
    | cons d tl =>
      have hne := chunks3_ne_nil d tl
      show a :: b :: c :: 32 :: pprintGo (d :: tl) = _
      rw [ih]
      have hjoin : joinSp ([a, b, c] :: chunks3 (d :: tl))
          = [a, b, c] ++ 32 :: joinSp (chunks3 (d :: tl)) := by
        cases hch : chunks3 (d :: tl) with
        | nil => exact absurd hch hne
        | cons y ys => rfl
      show _ = joinSp ([a, b, c] :: chunks3 (d :: tl)) ++ _
      rw [hjoin]
      have hmod : (a :: b :: c :: d :: tl).length % 3 = (d :: tl).length % 3 := by
        simp only [List.length_cons]
        omega
      rw [hmod]
      have hne2 : d :: tl ≠ [] := by simp
      have hne3 : a :: b :: c :: d :: tl ≠ [] := by simp
      simp only [hne2, hne3, ne_eq, not_false_eq_true, and_true]
      simp

lemma joinSp_head : ∀ l : List ℕ, (joinSp (chunks3 l)).head? = l.head?
  | [] => by simp [chunks3, joinSp]
  | [a] => by simp [chunks3, joinSp]
  | [a, b] => by simp [chunks3, joinSp]
  | a :: b :: c :: rest => by
    cases hch : chunks3 rest with
    | nil =>
      cases rest with
      | nil => simp [chunks3, joinSp]
      | cons d tl => exact absurd hch (chunks3_ne_nil d tl)
    | cons y ys =>
      show (joinSp ([a, b, c] :: chunks3 rest)).head? = some a
      rw [hch]
      rfl

lemma joinSp_getLast : ∀ l : List ℕ, l ≠ [] →
    (joinSp (chunks3 l)).getLast? = l.getLast?
  | [], h => absurd rfl h
  | [a], _ => by simp [chunks3, joinSp]
  | [a, b], _ => by simp [chunks3, joinSp]
  | [a, b, c], _ => by simp [chunks3, joinSp]
  | a :: b :: c :: d :: tl, _ => by
    have ih := joinSp_getLast (d :: tl) (by simp)
    have hne := chunks3_ne_nil d tl
    have hjoin : joinSp ([a, b, c] :: chunks3 (d :: tl))
        = [a, b, c] ++ 32 :: joinSp (chunks3 (d :: tl)) := by
      cases hch : chunks3 (d :: tl) with
      | nil => exact absurd hch hne
      | cons y ys => rfl
    show (joinSp ([a, b, c] :: chunks3 (d :: tl))).getLast? = _
    rw [hjoin]
    have hjne : joinSp (chunks3 (d :: tl)) ≠ [] := by
      intro hempty
      have hh := joinSp_head (d :: tl)
      rw [hempty] at hh
      simp at hh
    rw [List.getLast?_append_of_ne_nil _ (by simp : (32 :: joinSp (chunks3 (d :: tl))) ≠ [])]
    cases hj : joinSp (chunks3 (d :: tl)) with
    | nil => exact absurd hj hjne
    | cons y ys =>
      rw [List.getLast?_cons_cons, ← hj, ih,
        List.getLast?_cons_cons, List.getLast?_cons_cons, List.getLast?_cons_cons]

lemma trimSpace_of_ends (y : List ℕ) (c0 c1 : ℕ)
    (hh : y.head? = some c0) (h0 : isSpaceByte c0 = false)
    (hl : y.getLast? = some c1) (h1 : isSpaceByte c1 = false) :
    trimSpace y = y ∧ trimSpace (y ++ [32]) = y := by
  have hdw : y.dropWhile isSpaceByte = y := dropWhile_eq_self_of_head _ y c0 hh h0
  have hrevh : y.reverse.head? = some c1 := by
    rw [List.head?_reverse]
    exact hl
  have hdwrev : y.reverse.dropWhile isSpaceByte = y.reverse :=
    dropWhile_eq_self_of_head _ _ c1 hrevh h1
  constructor
  · unfold trimSpace
    rw [hdw, hdwrev, List.reverse_reverse]
  · unfold trimSpace
    have h2 : (y ++ [32]).dropWhile isSpaceByte = y ++ [32] := by
      apply dropWhile_eq_self_of_head _ _ c0 _ h0
      cases y with
      | nil => simp at hh
      | cons a ys =>
        obtain rfl : a = c0 := by simpa using hh
        rfl
    rw [h2, List.reverse_append,
      show ([32] : List ℕ).reverse ++ y.reverse = 32 :: y.reverse from rfl,
      List.dropWhile_cons_of_pos (by decide), hdwrev, List.reverse_reverse]

/-- Amended claim C9 (for ASCII inputs, where the byte-level model of
`TrimSpace` is exact): the result never starts or ends with white space;
for inputs containing no white space the result is exactly the 3-byte
chunks from the left joined by single spaces with the final group holding
the remainder; and the three documented examples hold. -/
theorem claim_C9_amended :
    (∀ code : List ℕ, (∀ b ∈ code, b < 128) →
      (∀ c, (PPrint code).head? = some c → isSpaceByte c = false) ∧
      (∀ c, (PPrint code).getLast? = some c → isSpaceByte c = false) ∧
      ((∀ b ∈ code, isSpaceByte b = false) →
        PPrint code = joinSp (chunks3 code))) ∧
    PPrint [49, 50, 51, 52, 53, 54] = [49, 50, 51, 32, 52, 53, 54] ∧
    PPrint [49, 50, 51, 52, 53, 54, 55, 56]
      = [49, 50, 51, 32, 52, 53, 54, 32, 55, 56] ∧
    PPrint [49, 50] = [49, 50] := by
  refine ⟨?_, by decide, by decide, by decide⟩
  intro code hascii
  refine ⟨fun c => trimSpace_head _ c, fun c => trimSpace_getLast _ c, ?_⟩
  intro hns
  unfold PPrint
  rw [pprintGo_eq]
  cases hcode : code with
  | nil => simp [chunks3, joinSp, trimSpace]
  | cons a tl =>
    rw [← hcode]
    have hcne : code ≠ [] := by simp [hcode]
    have hy_head : (joinSp (chunks3 code)).head? = some a := by
      rw [joinSp_head code, hcode]
      rfl
    have hy_last := joinSp_getLast code hcne
    have ha_mem : a ∈ code := by simp [hcode]
    have ha_ns : isSpaceByte a = false := hns a ha_mem
    rcases hgl : code.getLast? with _ | c1
    · rw [List.getLast?_eq_none_iff] at hgl
      exact absurd hgl hcne
    · have hc1_mem : c1 ∈ code := List.mem_of_getLast?_eq_some hgl
      have hc1_ns : isSpaceByte c1 = false := hns c1 hc1_mem
      rw [hgl] at hy_last
      obtain ⟨h1, h2⟩ := trimSpace_of_ends (joinSp (chunks3 code)) a c1
        hy_head ha_ns hy_last hc1_ns
      split
      · exact h2
      · rw [List.append_nil]
        exact h1

/-- Witness for the amended C9 at the input `"123"`. -/
theorem claim_C9_amended_witness :
    isSpaceByte 49 = false ∧
    PPrint [49, 50, 51] = joinSp (chunks3 [49, 50, 51]) := by
  have h := claim_C9_amended.1 [49, 50, 51] (by decide)
  refine ⟨?_, h.2.2 (by decide)⟩
  apply h.1 49
  decide

/-- Counterexample to C9 as stated: on the input `" a"` (which starts with
a space) `TrimSpace` removes part of the first chunk, so the result is not
the 3-character chunk decomposition of the input. -/
theorem claim_C9_counterexample :
    PPrint [32, 97] = [97] ∧ joinSp (chunks3 [32, 97]) = [32, 97] ∧
    ([97] : List ℕ) ≠ [32, 97] :=
  ⟨by decide, by decide, by decide⟩

end RatRed2

end OTPVerify

namespace OTPVerify

/-! ## Claims C1, C2, C3, C8 -/

/-- Claim C1: for every configuration with `Digit ∈ [6, 9]`, every secret
byte sequence and every 64-bit counter, `HOTP` returns a value strictly
below `10^Digit`. -/
theorem claim_C1 (otp : OneTimePassword) (secret : List ℕ) (count : ℕ)
    (h6 : 6 ≤ otp.Digit) (h9 : otp.Digit ≤ 9) (hc : count < 2 ^ 64) :
    otp.HOTP secret count < 10 ^ otp.Digit := by
  have hpos : 0 < 10 ^ otp.Digit := Nat.pos_pow_of_pos _ (by norm_num)
  simpa [OneTimePassword.HOTP, OneTimePassword.truncate] using
    Nat.mod_lt _ hpos

/-- Witness for C1 at `otp6`, the empty secret and counter 0. -/
theorem claim_C1_witness :
    6 ≤ otp6.Digit ∧ otp6.Digit ≤ 9 ∧ (0 : ℕ) < 2 ^ 64 ∧
      otp6.HOTP [] 0 < 10 ^ otp6.Digit :=
  ⟨by decide, by decide, by positivity,
   claim_C1 otp6 [] 0 (by decide) (by decide) (by positivity)⟩

set_option maxRecDepth 40000

/-- Claim C2: with `New 6` (6-digit, SHA-1) and the ASCII secret
`"12345678901234567890"`, `HOTP` reproduces the RFC 4226 Appendix D test
vectors for counters 0-9. -/
theorem claim_C2 :
    New 6 = Except.ok otp6 ∧
    otp6.HOTP rfcSecret 0 = 755224 ∧ otp6.HOTP rfcSecret 1 = 287082 ∧
    otp6.HOTP rfcSecret 2 = 359152 ∧ otp6.HOTP rfcSecret 3 = 969429 ∧
    otp6.HOTP rfcSecret 4 = 338314 ∧ otp6.HOTP rfcSecret 5 = 254676 ∧
    otp6.HOTP rfcSecret 6 = 287922 ∧ otp6.HOTP rfcSecret 7 = 162583 ∧
    otp6.HOTP rfcSecret 8 = 399871 ∧ otp6.HOTP rfcSecret 9 = 520489 :=
  ⟨rfl, by decide, by decide, by decide, by decide, by decide,
   by decide, by decide, by decide, by decide, by decide⟩

/-- Claim C3: `New digit` returns the fully populated configuration (SHA-1,
30-second step, Unix-epoch base time) exactly when `6 ≤ digit ≤ 9`, and the
corresponding `InvalidDigitCount` error otherwise. -/
theorem claim_C3 (d : ℤ) :
    (6 ≤ d → d ≤ 9 → New d = Except.ok ⟨d.toNat, 30 * 10 ^ 9, 0, sha1Hash, 64⟩) ∧
    (d < 6 → New d =
      Except.error "minimum of 6 digits is required for a valid HTOP code") ∧
    (9 < d → New d =
      Except.error "HTOP code cannot be longer than 9 digits") := by
  refine ⟨fun h6 h9 => ?_, fun hlt => ?_, fun hgt => ?_⟩
  · simp [New, show ¬d < 6 by omega, show ¬d > 9 by omega]
  · simp [New, hlt]
  · simp [New, hgt, show ¬d < 6 by omega]

/-- Witness for C3 at the concrete digits 6, 9, 5 and 10. -/
theorem claim_C3_witness :
    New 6 = Except.ok ⟨(6 : ℤ).toNat, 30 * 10 ^ 9, 0, sha1Hash, 64⟩ ∧
    New 9 = Except.ok ⟨(9 : ℤ).toNat, 30 * 10 ^ 9, 0, sha1Hash, 64⟩ ∧
    New 5 = Except.error "minimum of 6 digits is required for a valid HTOP code" ∧
    New 10 = Except.error "HTOP code cannot be longer than 9 digits" :=
  ⟨(claim_C3 6).1 (by norm_num) (by norm_num),
   (claim_C3 9).1 (by norm_num) (by norm_num),
   (claim_C3 5).2.1 (by norm_num),
   (claim_C3 10).2.2 (by norm_num)⟩

/-- Claim C8: for every digest of at least 20 bytes (the SHA-1 digest
length, the shortest standard choice), the dynamic-truncation offset
satisfies `offset + 4 ≤ length`, so the 4-byte slice taken by `dt` is in
bounds and yields exactly 4 bytes. -/
theorem claim_C8 (hs : List ℕ) (h : 20 ≤ hs.length) :
    dtSafe hs ∧ (dt hs).length = 4 := by
  have hoff : dtOffset hs ≤ 15 := Nat.and_le_right
  have hsafe : dtSafe hs := le_trans (by omega) h
  refine ⟨hsafe, ?_⟩
  have hlen : ((hs.drop (dtOffset hs)).take 4).length = 4 := by
    simp only [List.length_take, List.length_drop]
    unfold dtSafe at hsafe
    omega
  simp only [dt]
  set l := (hs.drop (dtOffset hs)).take 4 with hl
  rw [show hs.getD (hs.length - 1) 0 &&& 0xf = dtOffset hs from rfl, ← hl]
  match l, hlen with
  | [a, b, c, d], _ => rfl

/-- Witness for C8 on a concrete 20-byte digest. -/
theorem claim_C8_witness :
    dtSafe (List.replicate 20 7) ∧ (dt (List.replicate 20 7)).length = 4 :=
  claim_C8 (List.replicate 20 7) (by decide)

end OTPVerify
